import Mathlib

/-!
Verification of the SplitChain balance ledger and debt-simplification engine.

The development shallowly embeds:
* the off-chain balance aggregator `calculateBalances` and greedy simplifier
  `simplifyDebts` from the Next.js balances route;
* the on-chain `SplitChain` contract's balance update (`addExpense`), its
  greedy `getSimplifiedDebts` view and its `settleDebt` operation;
* the settlements POST route together with the SQLite `Settlement` table
  (whose `txHash` column is nullable and carries no uniqueness constraint).

Addresses are opaque string keys.  Amounts are arbitrary-precision signed
integers (`ℤ`): JS `BigInt` and Solidity integer division both truncate
toward zero, which is `Int.tdiv`/`Int.tmod`; the relevant code paths only
divide positive amounts by positive counts, where this agrees with floor
division.  Balance maps (`Map<string, bigint>` read with default `0n`, and
the contract's `memberBalances` mapping) are embedded as total functions
`Addr → ℤ` that are zero outside the finitely many touched keys.
-/

abbrev Addr := String

/-- `mset b k v` is `balances.set(k, v)` on a JS `Map` read with default
`0n`, and likewise a store to the contract's `memberBalances` mapping. -/
def mset (b : Addr → ℤ) (k : Addr) (v : ℤ) : Addr → ℤ :=
  fun x => if x = k then v else b x

structure Expense where
  payerAddress : Addr
  amount : ℤ
  participants : List Addr
deriving Repr, DecidableEq

structure Settlement where
  fromAddress : Addr
  toAddress : Addr
  amount : ℤ
deriving Repr, DecidableEq

/-- One expense of the `calculateBalances` loop (balances route):
`share = amount / numParticipants`; every participant other than the payer
credits the payer by `share` and is itself debited by `share`; an expense
with no participants is skipped (`continue`). -/
def expenseStep (bal : Addr → ℤ) (e : Expense) : Addr → ℤ :=
  if e.participants.length = 0 then bal
  else
    let sharePerPerson : ℤ := Int.tdiv e.amount (e.participants.length : ℤ)
    e.participants.foldl
      (fun b addr =>
        if addr = e.payerAddress then b
        else
          let b1 := mset b e.payerAddress (b e.payerAddress + sharePerPerson)
          mset b1 addr (b1 addr - sharePerPerson))
      bal

/-- One settlement of the `calculateBalances` loop: `fromAddress` gains
`amount` (their debt shrinks), `toAddress` loses `amount`. -/
def settlementStep (bal : Addr → ℤ) (s : Settlement) : Addr → ℤ :=
  let b1 := mset bal s.fromAddress (bal s.fromAddress + s.amount)
  mset b1 s.toAddress (b1 s.toAddress - s.amount)

/-- The off-chain aggregator `calculateBalances`: fold all expenses, then
all settlements, over the empty balance map. -/
def calculateBalances (expenses : List Expense) (settlements : List Settlement) :
    Addr → ℤ :=
  settlements.foldl settlementStep (expenses.foldl expenseStep (fun _ => 0))

/-- The balance-update portion of the contract's `addExpense`
(SplitChain.sol lines 217-226): `sharePerPerson = amount / participants.length`;
the payer is credited the full `amount`; every participant entry is debited
`sharePerPerson`. -/
def addExpenseUpdate (bal : Addr → ℤ) (payer : Addr) (amount : ℤ)
    (participants : List Addr) : Addr → ℤ :=
  let sharePerPerson : ℤ := Int.tdiv amount (participants.length : ℤ)
  let b1 := mset bal payer (bal payer + amount)
  participants.foldl (fun b p => mset b p (b p - sharePerPerson)) b1

/-- The contract's `addExpense` as a transition on the balance mapping of one
group: the `onlyMember` modifier and the `require`s guard the update, and a
reverted call leaves the stored balances unchanged. -/
def addExpense (isMember : Addr → Bool) (bal : Addr → ℤ) (payer : Addr)
    (amount : ℤ) (participants : List Addr) : Addr → ℤ :=
  if isMember payer && decide (0 < amount) && decide (participants ≠ []) &&
      participants.all isMember then
    addExpenseUpdate bal payer amount participants
  else bal

/-- Sum of the balances of the members listed in `L`. -/
def sumOver (L : List Addr) (b : Addr → ℤ) : ℤ := (L.map b).sum

theorem sumOver_nil (b : Addr → ℤ) : sumOver [] b = 0 := rfl

theorem sumOver_cons (a : Addr) (L : List Addr) (b : Addr → ℤ) :
    sumOver (a :: L) b = b a + sumOver L b := by
  simp [sumOver]

theorem sumOver_congr (L : List Addr) (f g : Addr → ℤ) (h : ∀ x ∈ L, f x = g x) :
    sumOver L f = sumOver L g := by
  unfold sumOver
  rw [List.map_congr_left h]

theorem sumOver_zero (L : List Addr) : sumOver L (fun _ => 0) = 0 := by
  induction L with
  | nil => rfl
  | cons a L ih => rw [sumOver_cons, ih]; ring

theorem sumOver_add (L : List Addr) (f g : Addr → ℤ) :
    sumOver L (fun x => f x + g x) = sumOver L f + sumOver L g := by
  induction L with
  | nil => rfl
  | cons a L ih => rw [sumOver_cons, sumOver_cons, sumOver_cons, ih]; ring

theorem sumOver_neg (L : List Addr) (f : Addr → ℤ) :
    sumOver L (fun x => - f x) = - sumOver L f := by
  induction L with
  | nil => rfl
  | cons a L ih => rw [sumOver_cons, sumOver_cons, ih]; ring

theorem sumOver_mul_left (L : List Addr) (c : ℤ) (f : Addr → ℤ) :
    sumOver L (fun x => c * f x) = c * sumOver L f := by
  induction L with
  | nil => simp [sumOver_nil]
  | cons a L ih => rw [sumOver_cons, sumOver_cons, ih]; ring

theorem sumOver_single (L : List Addr) (hL : L.Nodup) (k : Addr) (hk : k ∈ L) (v : ℤ) :
    sumOver L (fun x => if x = k then v else 0) = v := by
  induction L with
  | nil => cases hk
  | cons a L ih =>
    rw [sumOver_cons]
    by_cases hka : k = a
    · subst hka
      have hnot : k ∉ L := (List.nodup_cons.mp hL).1
      have h0 : sumOver L (fun x => if x = k then v else 0) = sumOver L (fun _ => 0) := by
        apply sumOver_congr
        intro x hx
        have : x ≠ k := by rintro rfl; exact hnot hx
        simp [this]
      rw [h0, sumOver_zero]
      simp
    · have h : k ∈ L := by
        rcases List.mem_cons.mp hk with h | h
        · exact absurd h hka
        · exact h
      have ha : a ≠ k := fun hak => hka hak.symm
      rw [ih (List.nodup_cons.mp hL).2 h]
      simp [ha]

theorem sumOver_mset (L : List Addr) (hL : L.Nodup) (b : Addr → ℤ) (k : Addr)
    (hk : k ∈ L) (v : ℤ) : sumOver L (mset b k v) = sumOver L b + v - b k := by
  have h : ∀ x ∈ L, mset b k v x = b x + (if x = k then v - b k else 0) := by
    intro x _
    by_cases hx : x = k
    · subst hx; simp [mset]
    · simp [mset, hx]
  rw [sumOver_congr _ _ _ h, sumOver_add, sumOver_single L hL k hk]
  ring

/-- Each address in `L` (nodup) counts the occurrences of itself in `l`;
when every element of `l` lies in `L` these counts total `l.length`. -/
theorem sumOver_count (L : List Addr) (hL : L.Nodup) (l : List Addr)
    (hl : ∀ a ∈ l, a ∈ L) :
    sumOver L (fun x => ((l.count x : ℕ) : ℤ)) = (l.length : ℤ) := by
  induction l with
  | nil => simp [sumOver_zero]
  | cons a l ih =>
    have h : ∀ x ∈ L, ((List.count x (a :: l) : ℕ) : ℤ) =
        ((l.count x : ℕ) : ℤ) + (if x = a then (1 : ℤ) else 0) := by
      intro x _
      rw [List.count_cons]
      by_cases hx : a = x
      · subst hx; simp
      · have : x ≠ a := fun h => hx h.symm
        simp [hx, this]
    rw [sumOver_congr _ _ _ h, sumOver_add,
      ih (fun x hx => hl x (List.mem_cons_of_mem a hx)),
      sumOver_single L hL a (hl a (List.mem_cons_self a l))]
    simp [List.length_cons]

/-- The payer never occurs among the participant entries kept by the
`addr === payer` skip. -/
theorem count_payer_filter (payer : Addr) (ps : List Addr) :
    (ps.filter (fun a => a != payer)).count payer = 0 := by
  rw [List.count_eq_zero]
  intro h
  have := (List.mem_filter.mp h).2
  simp at this

/-- Pointwise effect of the off-chain expense loop: the payer gains `s` once
per participant entry distinct from the payer, and every other address loses
`s` once per occurrence among those entries. -/
theorem expenseLoop_delta (payer : Addr) (s : ℤ) (ps : List Addr) (b : Addr → ℤ)
    (x : Addr) :
    ps.foldl
      (fun b addr =>
        if addr = payer then b
        else
          let b1 := mset b payer (b payer + s)
          mset b1 addr (b1 addr - s)) b x =
      b x + (if x = payer then s * (((ps.filter (fun a => a != payer)).length : ℕ) : ℤ) else 0)
        - s * (((ps.filter (fun a => a != payer)).count x : ℕ) : ℤ) := by
  induction ps generalizing b with
  | nil => simp
  | cons a ps ih =>
    by_cases ha : a = payer
    · subst ha
      rw [List.foldl_cons, if_pos rfl, ih]
      simp [List.filter_cons]
    · rw [List.foldl_cons, if_neg ha, ih]
      have hfa : (a :: ps).filter (fun a => a != payer) =
          a :: ps.filter (fun a => a != payer) := by
        simp [List.filter_cons, ha]
      rw [hfa]
      have hb1a : mset b payer (b payer + s) a = b a := by
        simp [mset, ha]
      rw [hb1a]
      by_cases hx : x = payer
      · subst hx
        have hpa : x ≠ a := fun h => ha h.symm
        have hb2 : mset (mset b x (b x + s)) a (b a - s) x = b x + s := by
          simp [mset, hpa]
        rw [hb2, if_pos rfl, if_pos rfl, count_payer_filter,
          List.count_cons, count_payer_filter, List.length_cons]
        have haxf : (a == x) = false := by simp [ha]
        rw [haxf]
        push_cast
        ring
      · rw [if_neg hx, if_neg hx, List.count_cons]
        by_cases hxa : x = a
        · subst hxa
          have hb2 : mset (mset b payer (b payer + s)) x (b x - s) x = b x - s := by
            simp [mset]
          rw [hb2]
          simp only [beq_self_eq_true, if_pos rfl]
          push_cast
          ring
        · have hb2 : mset (mset b payer (b payer + s)) a (b a - s) x = b x := by
            simp [mset, hx, hxa]
          rw [hb2]
          have haxf : (a == x) = false := by
            simp
            exact fun h => hxa h.symm
          rw [haxf]
          simp

/-- Pointwise effect of the contract's debit loop: each address loses
`s` once per occurrence among the participant entries. -/
theorem debitLoop_delta (s : ℤ) (ps : List Addr) (b : Addr → ℤ) (x : Addr) :
    ps.foldl (fun b p => mset b p (b p - s)) b x =
      b x - s * ((ps.count x : ℕ) : ℤ) := by
  induction ps generalizing b with
  | nil => simp
  | cons a ps ih =>
    rw [List.foldl_cons, ih, List.count_cons]
    by_cases hx : x = a
    · subst hx
      have hb : mset b x (b x - s) x = b x - s := by simp [mset]
      rw [hb]
      simp only [beq_self_eq_true, if_pos rfl]
      push_cast
      ring
    · have hb : mset b a (b a - s) x = b x := by simp [mset, hx]
      have haxf : (a == x) = false := by
        simp
        exact fun h => hx h.symm
      rw [hb, haxf]
      simp

/-- Pointwise effect of the contract's `addExpense` balance update. -/
theorem addExpenseUpdate_delta (bal : Addr → ℤ) (payer : Addr) (amount : ℤ)
    (ps : List Addr) (x : Addr) :
    addExpenseUpdate bal payer amount ps x =
      bal x + (if x = payer then amount else 0)
        - Int.tdiv amount (ps.length : ℤ) * ((ps.count x : ℕ) : ℤ) := by
  unfold addExpenseUpdate
  rw [debitLoop_delta]
  by_cases hx : x = payer
  · subst hx; simp [mset]
  · simp [mset, hx]

/-- Pointwise effect of one off-chain expense. -/
theorem expenseStep_delta (bal : Addr → ℤ) (e : Expense) (x : Addr)
    (hne : e.participants ≠ []) :
    expenseStep bal e x =
      bal x
        + (if x = e.payerAddress then
            Int.tdiv e.amount (e.participants.length : ℤ) *
              (((e.participants.filter (fun a => a != e.payerAddress)).length : ℕ) : ℤ)
          else 0)
        - Int.tdiv e.amount (e.participants.length : ℤ) *
            (((e.participants.filter (fun a => a != e.payerAddress)).count x : ℕ) : ℤ) := by
  unfold expenseStep
  rw [if_neg (by simpa using hne)]
  exact expenseLoop_delta e.payerAddress _ e.participants bal x

/-- One off-chain expense leaves the total of all balances unchanged. -/
theorem expenseStep_sumOver (L : List Addr) (hL : L.Nodup) (bal : Addr → ℤ)
    (e : Expense) (hp : e.payerAddress ∈ L) (hps : ∀ a ∈ e.participants, a ∈ L) :
    sumOver L (expenseStep bal e) = sumOver L bal := by
  by_cases hne : e.participants = []
  · unfold expenseStep
    rw [if_pos (by simp [hne])]
  · set s := Int.tdiv e.amount (e.participants.length : ℤ) with hs
    set f := e.participants.filter (fun a => a != e.payerAddress) with hf
    have h : ∀ x ∈ L, expenseStep bal e x =
        bal x + ((if x = e.payerAddress then s * ((f.length : ℕ) : ℤ) else 0)
          + (- (s * ((f.count x : ℕ) : ℤ)))) := by
      intro x _
      rw [expenseStep_delta bal e x hne]
      ring
    rw [sumOver_congr _ _ _ h, sumOver_add, sumOver_add,
      sumOver_single L hL e.payerAddress hp,
      sumOver_neg, sumOver_mul_left, sumOver_count L hL f
        (fun a ha => hps a (List.mem_of_mem_filter ha))]
    ring

/-- One settlement record leaves the total of all balances unchanged. -/
theorem settlementStep_sumOver (L : List Addr) (hL : L.Nodup) (bal : Addr → ℤ)
    (s : Settlement) (hf : s.fromAddress ∈ L) (ht : s.toAddress ∈ L) :
    sumOver L (settlementStep bal s) = sumOver L bal := by
  unfold settlementStep
  rw [sumOver_mset L hL _ s.toAddress ht, sumOver_mset L hL _ s.fromAddress hf]
  ring

/-- Closed-ledger invariant of the off-chain aggregator: for every member
list covering all touched addresses, the computed balances sum to zero. -/
theorem calculateBalances_sumOver (L : List Addr) (hL : L.Nodup)
    (expenses : List Expense) (settlements : List Settlement)
    (hes : ∀ e ∈ expenses, e.payerAddress ∈ L ∧ ∀ a ∈ e.participants, a ∈ L)
    (hss : ∀ s ∈ settlements, s.fromAddress ∈ L ∧ s.toAddress ∈ L) :
    sumOver L (calculateBalances expenses settlements) = 0 := by
  unfold calculateBalances
  have hexp : sumOver L (expenses.foldl expenseStep (fun _ => 0)) = 0 := by
    induction expenses using List.reverseRecOn with
    | nil => exact sumOver_zero L
    | append_singleton es e ih =>
      rw [List.foldl_append, List.foldl_cons, List.foldl_nil]
      rcases hes e (by simp) with ⟨h1, h2⟩
      rw [expenseStep_sumOver L hL _ e h1 h2]
      exact ih (fun e' he' => hes e' (by simp [he']))
  induction settlements using List.reverseRecOn with
  | nil => simpa using hexp
  | append_singleton ss s ih =>
    rw [List.foldl_append, List.foldl_cons, List.foldl_nil]
    rcases hss s (by simp) with ⟨h1, h2⟩
    rw [settlementStep_sumOver L hL _ s h1 h2]
    exact ih (fun s' hs' => hss s' (by simp [hs']))

structure Party where
  address : Addr
  amount : ℤ
deriving Repr, DecidableEq

structure SimplifiedDebt where
  fromAddr : Addr
  toAddr : Addr
  amount : ℤ
deriving Repr, DecidableEq

/-- The `simplifyDebts` creditor extraction: entries with positive balance,
in map-iteration (insertion) order. -/
def creditorsOf (balances : List (Addr × ℤ)) : List Party :=
  (balances.filter (fun p => decide (0 < p.2))).map (fun p => ⟨p.1, p.2⟩)

/-- The `simplifyDebts` debtor extraction: entries with negative balance,
stored as positive magnitudes, in map-iteration order. -/
def debtorsOf (balances : List (Addr × ℤ)) : List Party :=
  (balances.filter (fun p => decide (p.2 < 0))).map (fun p => ⟨p.1, -p.2⟩)

/-- Descending insertion: keeps the incoming element behind every strictly
or equally larger one already placed, so the sort is stable.  This models
`arr.sort((a, b) => (b.amount > a.amount ? 1 : -1))`, a sort by amount
descending whose behaviour on ties JS leaves unspecified. -/
def insertDesc (x : Party) : List Party → List Party
  | [] => [x]
  | y :: ys => if x.amount ≤ y.amount then y :: insertDesc x ys else x :: y :: ys

def sortDesc (l : List Party) : List Party := l.foldr insertDesc []

/-- The two-pointer greedy matching loop of `simplifyDebts`.  The source
advances the creditor pointer exactly when `creditor.amount` hits `0`, i.e.
when `c.amount ≤ d.amount`, and the debtor pointer exactly when
`d.amount ≤ c.amount`; the three branches below reproduce that advancement
for all integer amounts. -/
def greedy : List Party → List Party → List SimplifiedDebt
  | [], _ => []
  | _ :: _, [] => []
  | c :: cs, d :: ds =>
    let a := if c.amount < d.amount then c.amount else d.amount
    let pushed := if 0 < a then [⟨d.address, c.address, a⟩] else []
    if c.amount < d.amount then
      pushed ++ greedy cs (⟨d.address, d.amount - a⟩ :: ds)
    else if d.amount < c.amount then
      pushed ++ greedy (⟨c.address, c.amount - a⟩ :: cs) ds
    else
      pushed ++ greedy cs ds
termination_by cs ds => cs.length + ds.length
decreasing_by all_goals (simp only [List.length_cons]; omega)

/-- The off-chain `simplifyDebts`: split the balance map into creditors and
debtors, sort each by amount descending, and run the greedy matcher. -/
def simplifyDebts (balances : List (Addr × ℤ)) : List SimplifiedDebt :=
  greedy (sortDesc (creditorsOf balances)) (sortDesc (debtorsOf balances))

/-- Total amount of the simplified-debt entries credited to address `x`. -/
def creditTo (x : Addr) (es : List SimplifiedDebt) : ℤ :=
  ((es.filter (fun e => e.toAddr == x)).map (fun e => e.amount)).sum

/-- Total amount of the simplified-debt entries debited from address `x`. -/
def debitFrom (x : Addr) (es : List SimplifiedDebt) : ℤ :=
  ((es.filter (fun e => e.fromAddr == x)).map (fun e => e.amount)).sum

/-- Total amount carried by address `x` in a creditor/debtor list. -/
def amtOf (x : Addr) (l : List Party) : ℤ :=
  ((l.filter (fun p => p.address == x)).map (fun p => p.amount)).sum

def totalAmt (l : List Party) : ℤ := (l.map (fun p => p.amount)).sum

theorem creditTo_nil (x : Addr) : creditTo x [] = 0 := rfl

theorem debitFrom_nil (x : Addr) : debitFrom x [] = 0 := rfl

theorem amtOf_nil (x : Addr) : amtOf x [] = 0 := rfl

theorem creditTo_cons (x : Addr) (e : SimplifiedDebt) (es : List SimplifiedDebt) :
    creditTo x (e :: es) = (if e.toAddr = x then e.amount else 0) + creditTo x es := by
  by_cases h : e.toAddr = x
  · simp [creditTo, List.filter_cons, h]
  · simp [creditTo, List.filter_cons, h]

theorem debitFrom_cons (x : Addr) (e : SimplifiedDebt) (es : List SimplifiedDebt) :
    debitFrom x (e :: es) = (if e.fromAddr = x then e.amount else 0) + debitFrom x es := by
  by_cases h : e.fromAddr = x
  · simp [debitFrom, List.filter_cons, h]
  · simp [debitFrom, List.filter_cons, h]

theorem amtOf_cons (x : Addr) (p : Party) (l : List Party) :
    amtOf x (p :: l) = (if p.address = x then p.amount else 0) + amtOf x l := by
  by_cases h : p.address = x
  · simp [amtOf, List.filter_cons, h]
  · simp [amtOf, List.filter_cons, h]

theorem totalAmt_cons (p : Party) (l : List Party) :
    totalAmt (p :: l) = p.amount + totalAmt l := by
  simp [totalAmt]

theorem totalAmt_nonneg (l : List Party) (h : ∀ p ∈ l, 0 < p.amount) :
    0 ≤ totalAmt l := by
  induction l with
  | nil => simp [totalAmt]
  | cons p l ih =>
    rw [totalAmt_cons]
    have h1 := h p (by simp)
    have h2 := ih (fun q hq => h q (by simp [hq]))
    omega

theorem totalAmt_pos (p : Party) (l : List Party) (h : ∀ q ∈ p :: l, 0 < q.amount) :
    0 < totalAmt (p :: l) := by
  rw [totalAmt_cons]
  have h1 := h p (by simp)
  have h2 := totalAmt_nonneg l (fun q hq => h q (by simp [hq]))
  omega

/-- Per-creditor conservation of the greedy matcher: when all amounts are
positive and total credit equals total debt, the entries credited to `x`
sum to exactly the credit `x` brought in. -/
theorem greedy_creditTo (C D : List Party) :
    (∀ p ∈ C, 0 < p.amount) → (∀ p ∈ D, 0 < p.amount) →
    totalAmt C = totalAmt D → ∀ x, creditTo x (greedy C D) = amtOf x C := by
  induction C, D using greedy.induct with
  | case1 D =>
    intro _ _ _ x
    simp [greedy, creditTo_nil, amtOf_nil]
  | case2 c cs =>
    intro hC _ hsum x
    exfalso
    have hpos := totalAmt_pos c cs hC
    have h0 : totalAmt ([] : List Party) = 0 := rfl
    omega
  | case3 c cs d ds a hlt ih =>
    intro hC hD hsum x
    have hc : 0 < c.amount := hC c (by simp)
    have ha : a = c.amount := dif_pos hlt
    rw [greedy]
    simp only [if_pos hlt, if_pos hc]
    have ihx := ih (fun p hp => hC p (List.mem_cons_of_mem c hp)) ?hD ?hsum x
    case hD =>
      intro p hp
      rcases List.mem_cons.mp hp with h | h
      · subst h
        show 0 < d.amount - a
        omega
      · exact hD p (List.mem_cons_of_mem d h)
    case hsum =>
      have h1 : totalAmt (c :: cs) = c.amount + totalAmt cs := totalAmt_cons c cs
      have h2 : totalAmt (d :: ds) = d.amount + totalAmt ds := totalAmt_cons d ds
      have h3 : totalAmt ({ address := d.address, amount := d.amount - a } :: ds) =
          (d.amount - a) + totalAmt ds :=
        totalAmt_cons { address := d.address, amount := d.amount - a } ds
      omega
    rw [ha] at ihx
    rw [List.singleton_append, creditTo_cons, ihx, amtOf_cons]
  | case4 c cs d ds a hnlt hlt ih =>
    intro hC hD hsum x
    have hd : 0 < d.amount := hD d (by simp)
    have ha : a = d.amount := dif_neg hnlt
    rw [greedy]
    simp only [if_neg hnlt, if_pos hlt, if_pos hd]
    have ihx := ih ?hC (fun p hp => hD p (List.mem_cons_of_mem d hp)) ?hsum x
    case hC =>
      intro p hp
      rcases List.mem_cons.mp hp with h | h
      · subst h
        show 0 < c.amount - a
        omega
      · exact hC p (List.mem_cons_of_mem c h)
    case hsum =>
      have h1 : totalAmt (c :: cs) = c.amount + totalAmt cs := totalAmt_cons c cs
      have h2 : totalAmt (d :: ds) = d.amount + totalAmt ds := totalAmt_cons d ds
      have h3 : totalAmt ({ address := c.address, amount := c.amount - a } :: cs) =
          (c.amount - a) + totalAmt cs :=
        totalAmt_cons { address := c.address, amount := c.amount - a } cs
      omega
    rw [ha] at ihx
    rw [List.singleton_append, creditTo_cons, ihx, amtOf_cons, amtOf_cons]
    dsimp only
    by_cases hcx : c.address = x
    · rw [if_pos hcx, if_pos hcx, if_pos hcx]
      ring
    · rw [if_neg hcx, if_neg hcx, if_neg hcx]
      ring
  | case5 c cs d ds hnlt hngt ih =>
    intro hC hD hsum x
    have hc : 0 < c.amount := hC c (by simp)
    have heq : c.amount = d.amount := by omega
    have hd : 0 < d.amount := by omega
    rw [greedy]
    simp only [if_neg hnlt, if_neg hngt, if_pos hd]
    have ihx := ih (fun p hp => hC p (List.mem_cons_of_mem c hp))
      (fun p hp => hD p (List.mem_cons_of_mem d hp)) ?hsum x
    case hsum =>
      have h1 : totalAmt (c :: cs) = c.amount + totalAmt cs := totalAmt_cons c cs
      have h2 : totalAmt (d :: ds) = d.amount + totalAmt ds := totalAmt_cons d ds
      omega
    rw [List.singleton_append, creditTo_cons, ihx, amtOf_cons]
    dsimp only
    by_cases hcx : c.address = x
    · rw [if_pos hcx, if_pos hcx, heq]
    · rw [if_neg hcx, if_neg hcx]

/-- Per-debtor conservation of the greedy matcher. -/
theorem greedy_debitFrom (C D : List Party) :
    (∀ p ∈ C, 0 < p.amount) → (∀ p ∈ D, 0 < p.amount) →
    totalAmt C = totalAmt D → ∀ x, debitFrom x (greedy C D) = amtOf x D := by
  induction C, D using greedy.induct with
  | case1 D =>
    intro _ hD hsum x
    have h0 : totalAmt ([] : List Party) = 0 := rfl
    cases D with
    | nil => simp [greedy, debitFrom_nil, amtOf_nil]
    | cons d ds =>
      exfalso
      have hpos := totalAmt_pos d ds hD
      omega
  | case2 c cs =>
    intro _ _ _ x
    simp [greedy, debitFrom_nil, amtOf_nil]
  | case3 c cs d ds a hlt ih =>
    intro hC hD hsum x
    have hc : 0 < c.amount := hC c (by simp)
    have ha : a = c.amount := dif_pos hlt
    rw [greedy]
    simp only [if_pos hlt, if_pos hc]
    have ihx := ih (fun p hp => hC p (List.mem_cons_of_mem c hp)) ?hD ?hsum x
    case hD =>
      intro p hp
      rcases List.mem_cons.mp hp with h | h
      · subst h
        show 0 < d.amount - a
        omega
      · exact hD p (List.mem_cons_of_mem d h)
    case hsum =>
      have h1 : totalAmt (c :: cs) = c.amount + totalAmt cs := totalAmt_cons c cs
      have h2 : totalAmt (d :: ds) = d.amount + totalAmt ds := totalAmt_cons d ds
      have h3 : totalAmt ({ address := d.address, amount := d.amount - a } :: ds) =
          (d.amount - a) + totalAmt ds :=
        totalAmt_cons { address := d.address, amount := d.amount - a } ds
      omega
    rw [ha] at ihx
    rw [List.singleton_append, debitFrom_cons, ihx, amtOf_cons, amtOf_cons]
    dsimp only
    by_cases hdx : d.address = x
    · rw [if_pos hdx, if_pos hdx, if_pos hdx]
      ring
    · rw [if_neg hdx, if_neg hdx, if_neg hdx]
      ring
  | case4 c cs d ds a hnlt hlt ih =>
    intro hC hD hsum x
    have hd : 0 < d.amount := hD d (by simp)
    have ha : a = d.amount := dif_neg hnlt
    rw [greedy]
    simp only [if_neg hnlt, if_pos hlt, if_pos hd]
    have ihx := ih ?hC (fun p hp => hD p (List.mem_cons_of_mem d hp)) ?hsum x
    case hC =>
      intro p hp
      rcases List.mem_cons.mp hp with h | h
      · subst h
        show 0 < c.amount - a
        omega
      · exact hC p (List.mem_cons_of_mem c h)
    case hsum =>
      have h1 : totalAmt (c :: cs) = c.amount + totalAmt cs := totalAmt_cons c cs
      have h2 : totalAmt (d :: ds) = d.amount + totalAmt ds := totalAmt_cons d ds
      have h3 : totalAmt ({ address := c.address, amount := c.amount - a } :: cs) =
          (c.amount - a) + totalAmt cs :=
        totalAmt_cons { address := c.address, amount := c.amount - a } cs
      omega
    rw [ha] at ihx
    rw [List.singleton_append, debitFrom_cons, ihx, amtOf_cons]
  | case5 c cs d ds hnlt hngt ih =>
    intro hC hD hsum x
    have hc : 0 < c.amount := hC c (by simp)
    have heq : c.amount = d.amount := by omega
    have hd : 0 < d.amount := by omega
    rw [greedy]
    simp only [if_neg hnlt, if_neg hngt, if_pos hd]
    have ihx := ih (fun p hp => hC p (List.mem_cons_of_mem c hp))
      (fun p hp => hD p (List.mem_cons_of_mem d hp)) ?hsum x
    case hsum =>
      have h1 : totalAmt (c :: cs) = c.amount + totalAmt cs := totalAmt_cons c cs
      have h2 : totalAmt (d :: ds) = d.amount + totalAmt ds := totalAmt_cons d ds
      omega
    rw [List.singleton_append, debitFrom_cons, ihx, amtOf_cons]

/-- Transfer-count bound of the greedy matcher: at most
`(number of creditors) + (number of debtors) − 1` entries. -/
theorem greedy_length (C D : List Party) :
    (greedy C D).length ≤ C.length + D.length - 1 := by
  induction C, D using greedy.induct with
  | case1 D => simp [greedy]
  | case2 c cs => simp [greedy]
  | case3 c cs d ds a hlt ih =>
    have ha : a = c.amount := dif_pos hlt
    rw [greedy]
    simp only [if_pos hlt]
    have hp : (if 0 < c.amount then
        [SimplifiedDebt.mk d.address c.address c.amount] else []).length ≤ 1 := by
      by_cases h : 0 < c.amount <;> simp [h]
    rw [List.length_append]
    have h1 := ih
    rw [ha] at h1
    simp only [List.length_cons] at h1 ⊢
    omega
  | case4 c cs d ds a hnlt hlt ih =>
    have ha : a = d.amount := dif_neg hnlt
    rw [greedy]
    simp only [if_neg hnlt, if_pos hlt]
    have hp : (if 0 < d.amount then
        [SimplifiedDebt.mk d.address c.address d.amount] else []).length ≤ 1 := by
      by_cases h : 0 < d.amount <;> simp [h]
    rw [List.length_append]
    have h1 := ih
    rw [ha] at h1
    simp only [List.length_cons] at h1 ⊢
    omega
  | case5 c cs d ds hnlt hngt ih =>
    rw [greedy]
    simp only [if_neg hnlt, if_neg hngt]
    have hp : (if 0 < d.amount then
        [SimplifiedDebt.mk d.address c.address d.amount] else []).length ≤ 1 := by
      by_cases h : 0 < d.amount <;> simp [h]
    rw [List.length_append]
    simp only [List.length_cons]
    omega

/-- Entry well-formedness of the greedy matcher: every entry has positive
amount (the `amount > 0n` guard), its creditor comes from the creditor list
and its debtor from the debtor list. -/
theorem greedy_mem (C D : List Party) (e : SimplifiedDebt) (he : e ∈ greedy C D) :
    0 < e.amount ∧ e.toAddr ∈ C.map Party.address ∧ e.fromAddr ∈ D.map Party.address := by
  induction C, D using greedy.induct with
  | case1 D => simp [greedy] at he
  | case2 c cs => simp [greedy] at he
  | case3 c cs d ds a hlt ih =>
    have ha : a = c.amount := dif_pos hlt
    rw [ha] at ih
    rw [greedy] at he
    simp only [if_pos hlt] at he
    rcases List.mem_append.mp he with h | h
    · by_cases hc : 0 < c.amount
      · rw [if_pos hc] at h
        simp only [List.mem_singleton] at h
        subst h
        exact ⟨hc, by simp, by simp⟩
      · rw [if_neg hc] at h
        simp at h
    · rcases ih h with ⟨h1, h2, h3⟩
      refine ⟨h1, by simp [h2], ?_⟩
      simp only [List.map_cons] at h3 ⊢
      rcases List.mem_cons.mp h3 with h4 | h4
      · simp [h4]
      · simp [h4]
  | case4 c cs d ds a hnlt hlt ih =>
    have ha : a = d.amount := dif_neg hnlt
    rw [ha] at ih
    rw [greedy] at he
    simp only [if_neg hnlt, if_pos hlt] at he
    rcases List.mem_append.mp he with h | h
    · by_cases hd : 0 < d.amount
      · rw [if_pos hd] at h
        simp only [List.mem_singleton] at h
        subst h
        exact ⟨hd, by simp, by simp⟩
      · rw [if_neg hd] at h
        simp at h
    · rcases ih h with ⟨h1, h2, h3⟩
      refine ⟨h1, ?_, by simp [h3]⟩
      simp only [List.map_cons] at h2 ⊢
      rcases List.mem_cons.mp h2 with h4 | h4
      · simp [h4]
      · simp [h4]
  | case5 c cs d ds hnlt hngt ih =>
    rw [greedy] at he
    simp only [if_neg hnlt, if_neg hngt] at he
    rcases List.mem_append.mp he with h | h
    · by_cases hd : 0 < d.amount
      · rw [if_pos hd] at h
        simp only [List.mem_singleton] at h
        subst h
        exact ⟨hd, by simp, by simp⟩
      · rw [if_neg hd] at h
        simp at h
    · rcases ih h with ⟨h1, h2, h3⟩
      exact ⟨h1, by simp [h2], by simp [h3]⟩

/-- With a positive creditor and a positive debtor at hand, the first round
of the greedy matcher emits an entry. -/
theorem greedy_ne_nil (c : Party) (cs : List Party) (d : Party) (ds : List Party)
    (hc : 0 < c.amount) (hd : 0 < d.amount) : greedy (c :: cs) (d :: ds) ≠ [] := by
  rw [greedy]
  by_cases hlt : c.amount < d.amount
  · simp only [if_pos hlt, if_pos hc]
    simp
  · by_cases hgt : d.amount < c.amount
    · simp only [if_neg hlt, if_pos hgt, if_pos hd]
      simp
    · simp only [if_neg hlt, if_neg hgt, if_pos hd]
      simp

theorem insertDesc_perm (x : Party) (l : List Party) :
    (insertDesc x l).Perm (x :: l) := by
  induction l with
  | nil => exact List.Perm.refl _
  | cons y ys ih =>
    rw [insertDesc]
    by_cases h : x.amount ≤ y.amount
    · rw [if_pos h]
      exact (ih.cons y).trans (List.Perm.swap x y ys)
    · rw [if_neg h]

theorem sortDesc_perm (l : List Party) : (sortDesc l).Perm l := by
  induction l with
  | nil => exact List.Perm.refl _
  | cons x xs ih =>
    exact (insertDesc_perm x (sortDesc xs)).trans (ih.cons x)

theorem sortDesc_amtOf (x : Addr) (l : List Party) :
    amtOf x (sortDesc l) = amtOf x l := by
  unfold amtOf
  exact (((sortDesc_perm l).filter _).map _).sum_eq

theorem sortDesc_totalAmt (l : List Party) : totalAmt (sortDesc l) = totalAmt l := by
  unfold totalAmt
  exact ((sortDesc_perm l).map _).sum_eq

theorem sortDesc_mem (p : Party) (l : List Party) : p ∈ sortDesc l ↔ p ∈ l :=
  (sortDesc_perm l).mem_iff

theorem sortDesc_length (l : List Party) : (sortDesc l).length = l.length :=
  (sortDesc_perm l).length_eq

theorem sortDesc_map_address (x : Addr) (l : List Party) :
    x ∈ (sortDesc l).map Party.address ↔ x ∈ l.map Party.address :=
  ((sortDesc_perm l).map _).mem_iff

/-- Sum of the values of a balance map (association list with the insertion
order of the JS `Map`). -/
def balSum (bal : List (Addr × ℤ)) : ℤ := (bal.map (fun p => p.2)).sum

def keysOf (bal : List (Addr × ℤ)) : List Addr := bal.map (fun p => p.1)

theorem creditorsOf_pos (bal : List (Addr × ℤ)) :
    ∀ p ∈ creditorsOf bal, 0 < p.amount := by
  intro p hp
  rcases List.mem_map.mp hp with ⟨q, hq, rfl⟩
  have := (List.mem_filter.mp hq).2
  simpa using this

theorem debtorsOf_pos (bal : List (Addr × ℤ)) :
    ∀ p ∈ debtorsOf bal, 0 < p.amount := by
  intro p hp
  rcases List.mem_map.mp hp with ⟨q, hq, rfl⟩
  have := (List.mem_filter.mp hq).2
  simp at this
  simpa using this

theorem creditorsOf_cons (a : Addr) (v : ℤ) (bal : List (Addr × ℤ)) :
    creditorsOf ((a, v) :: bal) =
      if 0 < v then Party.mk a v :: creditorsOf bal else creditorsOf bal := by
  by_cases h : 0 < v
  · simp [creditorsOf, List.filter_cons, h]
  · simp [creditorsOf, List.filter_cons, h]

theorem debtorsOf_cons (a : Addr) (v : ℤ) (bal : List (Addr × ℤ)) :
    debtorsOf ((a, v) :: bal) =
      if v < 0 then Party.mk a (-v) :: debtorsOf bal else debtorsOf bal := by
  by_cases h : v < 0
  · simp [debtorsOf, List.filter_cons, h]
  · simp [debtorsOf, List.filter_cons, h]

/-- Total credit minus total debt equals the sum of the balance map. -/
theorem totalAmt_creditors_debtors (bal : List (Addr × ℤ)) :
    totalAmt (creditorsOf bal) = totalAmt (debtorsOf bal) + balSum bal := by
  induction bal with
  | nil => simp [creditorsOf, debtorsOf, totalAmt, balSum]
  | cons p bal ih =>
    obtain ⟨a, v⟩ := p
    have hbs : balSum ((a, v) :: bal) = v + balSum bal := by simp [balSum]
    rw [creditorsOf_cons, debtorsOf_cons, hbs]
    rcases lt_trichotomy v 0 with h | h | h
    · rw [if_neg (by omega), if_pos h, totalAmt_cons]
      dsimp only
      omega
    · subst h
      rw [if_neg (by omega), if_neg (by omega)]
      omega
    · rw [if_pos h, if_neg (by omega), totalAmt_cons]
      dsimp only
      omega

theorem creditorsOf_addr_mem (bal : List (Addr × ℤ)) (p : Party)
    (hp : p ∈ creditorsOf bal) : p.address ∈ keysOf bal := by
  rcases List.mem_map.mp hp with ⟨q, hq, rfl⟩
  exact List.mem_map.mpr ⟨q, List.mem_of_mem_filter hq, rfl⟩

theorem debtorsOf_addr_mem (bal : List (Addr × ℤ)) (p : Party)
    (hp : p ∈ debtorsOf bal) : p.address ∈ keysOf bal := by
  rcases List.mem_map.mp hp with ⟨q, hq, rfl⟩
  exact List.mem_map.mpr ⟨q, List.mem_of_mem_filter hq, rfl⟩

theorem amtOf_eq_zero_of_not_mem (x : Addr) (l : List Party)
    (h : ∀ p ∈ l, p.address ≠ x) : amtOf x l = 0 := by
  induction l with
  | nil => rfl
  | cons p l ih =>
    rw [amtOf_cons, if_neg (h p (by simp)), ih (fun q hq => h q (by simp [hq]))]
    omega

theorem keysOf_cons (a : Addr) (v : ℤ) (bal : List (Addr × ℤ)) :
    keysOf ((a, v) :: bal) = a :: keysOf bal := rfl

/-- Under unique keys, the creditor list carries each positive balance once. -/
theorem amtOf_creditorsOf (bal : List (Addr × ℤ)) (hk : (keysOf bal).Nodup)
    (x : Addr) (v : ℤ) (hmem : (x, v) ∈ bal) (hv : 0 < v) :
    amtOf x (creditorsOf bal) = v := by
  induction bal with
  | nil => cases hmem
  | cons p bal ih =>
    obtain ⟨a, w⟩ := p
    rw [keysOf_cons] at hk
    have hknot : a ∉ keysOf bal := (List.nodup_cons.mp hk).1
    have hk2 : (keysOf bal).Nodup := (List.nodup_cons.mp hk).2
    rcases List.mem_cons.mp hmem with h | h
    · injection h with h1 h2
      subst h1
      subst h2
      rw [creditorsOf_cons, if_pos hv, amtOf_cons]
      dsimp only
      rw [if_pos rfl]
      have h0 : amtOf x (creditorsOf bal) = 0 := by
        apply amtOf_eq_zero_of_not_mem
        intro q hq hqa
        exact hknot (hqa ▸ creditorsOf_addr_mem bal q hq)
      omega
    · have hxk : x ∈ keysOf bal := List.mem_map.mpr ⟨(x, v), h, rfl⟩
      have hax : a ≠ x := fun haxeq => hknot (haxeq ▸ hxk)
      rw [creditorsOf_cons]
      by_cases hw : 0 < w
      · rw [if_pos hw, amtOf_cons]
        dsimp only
        rw [if_neg hax, ih hk2 h]
        omega
      · rw [if_neg hw]
        exact ih hk2 h

/-- Under unique keys, the debtor list carries each debt magnitude once. -/
theorem amtOf_debtorsOf (bal : List (Addr × ℤ)) (hk : (keysOf bal).Nodup)
    (x : Addr) (v : ℤ) (hmem : (x, v) ∈ bal) (hv : v < 0) :
    amtOf x (debtorsOf bal) = -v := by
  induction bal with
  | nil => cases hmem
  | cons p bal ih =>
    obtain ⟨a, w⟩ := p
    rw [keysOf_cons] at hk
    have hknot : a ∉ keysOf bal := (List.nodup_cons.mp hk).1
    have hk2 : (keysOf bal).Nodup := (List.nodup_cons.mp hk).2
    rcases List.mem_cons.mp hmem with h | h
    · injection h with h1 h2
      subst h1
      subst h2
      rw [debtorsOf_cons, if_pos hv, amtOf_cons]
      dsimp only
      rw [if_pos rfl]
      have h0 : amtOf x (debtorsOf bal) = 0 := by
        apply amtOf_eq_zero_of_not_mem
        intro q hq hqa
        exact hknot (hqa ▸ debtorsOf_addr_mem bal q hq)
      omega
    · have hxk : x ∈ keysOf bal := List.mem_map.mpr ⟨(x, v), h, rfl⟩
      have hax : a ≠ x := fun haxeq => hknot (haxeq ▸ hxk)
      rw [debtorsOf_cons]
      by_cases hw : w < 0
      · rw [if_pos hw, amtOf_cons]
        dsimp only
        rw [if_neg hax, ih hk2 h]
        omega
      · rw [if_neg hw]
        exact ih hk2 h

/-- Unique keys force a unique value per key. -/
theorem value_unique_of_nodup_keys (bal : List (Addr × ℤ)) (hk : (keysOf bal).Nodup)
    (x : Addr) (v w : ℤ) (hv : (x, v) ∈ bal) (hw : (x, w) ∈ bal) : v = w := by
  induction bal with
  | nil => cases hv
  | cons p bal ih =>
    obtain ⟨a, u⟩ := p
    rw [keysOf_cons] at hk
    have hknot : a ∉ keysOf bal := (List.nodup_cons.mp hk).1
    have hk2 : (keysOf bal).Nodup := (List.nodup_cons.mp hk).2
    rcases List.mem_cons.mp hv with h1 | h1 <;> rcases List.mem_cons.mp hw with h2 | h2
    · injection h1 with h1a h1b
      injection h2 with h2a h2b
      omega
    · injection h1 with h1a h1b
      subst h1a
      exact absurd (List.mem_map.mpr ⟨(x, w), h2, rfl⟩) hknot
    · injection h2 with h2a h2b
      subst h2a
      exact absurd (List.mem_map.mpr ⟨(x, v), h1, rfl⟩) hknot
    · exact ih hk2 h1 h2

theorem creditors_debtors_length (bal : List (Addr × ℤ)) :
    (creditorsOf bal).length + (debtorsOf bal).length =
      (bal.filter (fun p => decide (p.2 ≠ 0))).length := by
  induction bal with
  | nil => rfl
  | cons p bal ih =>
    obtain ⟨a, v⟩ := p
    rw [creditorsOf_cons, debtorsOf_cons, List.filter_cons]
    rcases lt_trichotomy v 0 with h | h | h
    · rw [if_neg (by omega), if_pos h, if_pos (by simp; omega)]
      simp only [List.length_cons]
      omega
    · subst h
      rw [if_neg (by omega), if_neg (by omega), if_neg (by simp)]
      exact ih
    · rw [if_pos h, if_neg (by omega), if_pos (by simp; omega)]
      simp only [List.length_cons]
      omega

theorem creditorsOf_eq_nil (bal : List (Addr × ℤ)) :
    creditorsOf bal = [] ↔ ∀ p ∈ bal, ¬(0 < p.2) := by
  constructor
  · intro h p hp hpos
    have : (⟨p.1, p.2⟩ : Party) ∈ creditorsOf bal :=
      List.mem_map.mpr ⟨p, List.mem_filter.mpr ⟨hp, by simpa using hpos⟩, rfl⟩
    rw [h] at this
    cases this
  · intro h
    unfold creditorsOf
    rw [List.map_eq_nil_iff]
    rw [List.filter_eq_nil_iff]
    intro p hp
    simpa using h p hp

theorem debtorsOf_eq_nil (bal : List (Addr × ℤ)) :
    debtorsOf bal = [] ↔ ∀ p ∈ bal, ¬(p.2 < 0) := by
  constructor
  · intro h p hp hneg
    have : (⟨p.1, -p.2⟩ : Party) ∈ debtorsOf bal :=
      List.mem_map.mpr ⟨p, List.mem_filter.mpr ⟨hp, by simpa using hneg⟩, rfl⟩
    rw [h] at this
    cases this
  · intro h
    unfold debtorsOf
    rw [List.map_eq_nil_iff]
    rw [List.filter_eq_nil_iff]
    intro p hp
    simpa using h p hp

/-- Conservation of `simplifyDebts`: under unique keys and a zero-sum
balance map, the entries credited to a creditor total exactly its positive
balance, and the entries debited from a debtor total exactly its debt
magnitude. -/
theorem simplifyDebts_conservation (bal : List (Addr × ℤ))
    (hk : (keysOf bal).Nodup) (hsum : balSum bal = 0) (x : Addr) (v : ℤ)
    (hmem : (x, v) ∈ bal) :
    (0 < v → creditTo x (simplifyDebts bal) = v) ∧
    (v < 0 → debitFrom x (simplifyDebts bal) = -v) := by
  have posC : ∀ p ∈ sortDesc (creditorsOf bal), 0 < p.amount := fun p hp =>
    creditorsOf_pos bal p ((sortDesc_mem p _).mp hp)
  have posD : ∀ p ∈ sortDesc (debtorsOf bal), 0 < p.amount := fun p hp =>
    debtorsOf_pos bal p ((sortDesc_mem p _).mp hp)
  have hTsum : totalAmt (sortDesc (creditorsOf bal)) =
      totalAmt (sortDesc (debtorsOf bal)) := by
    rw [sortDesc_totalAmt, sortDesc_totalAmt, totalAmt_creditors_debtors, hsum]
    ring
  constructor
  · intro hv
    unfold simplifyDebts
    rw [greedy_creditTo _ _ posC posD hTsum x, sortDesc_amtOf]
    exact amtOf_creditorsOf bal hk x v hmem hv
  · intro hv
    unfold simplifyDebts
    rw [greedy_debitFrom _ _ posC posD hTsum x, sortDesc_amtOf]
    exact amtOf_debtorsOf bal hk x v hmem hv

/-- Transfer-count bound of `simplifyDebts`: never more than
`(number of nonzero balances) − 1` entries (truncated subtraction). -/
theorem simplifyDebts_length (bal : List (Addr × ℤ)) :
    (simplifyDebts bal).length ≤
      (bal.filter (fun p => decide (p.2 ≠ 0))).length - 1 := by
  unfold simplifyDebts
  have h := greedy_length (sortDesc (creditorsOf bal)) (sortDesc (debtorsOf bal))
  rw [sortDesc_length, sortDesc_length] at h
  rw [creditors_debtors_length] at h
  exact h

/-- On a zero-sum balance map, `simplifyDebts` returns no entries exactly
when every balance is zero. -/
theorem simplifyDebts_eq_nil_iff (bal : List (Addr × ℤ)) (hsum : balSum bal = 0) :
    simplifyDebts bal = [] ↔ ∀ p ∈ bal, p.2 = 0 := by
  constructor
  · intro h
    by_contra hnz
    push_neg at hnz
    obtain ⟨p, hp, hpnz⟩ := hnz
    have hCne : creditorsOf bal ≠ [] ∨ debtorsOf bal ≠ [] := by
      rcases lt_trichotomy p.2 0 with hneg | hzero | hpos
      · right
        intro hnil
        exact (debtorsOf_eq_nil bal).mp hnil p hp hneg
      · exact absurd hzero hpnz
      · left
        intro hnil
        exact (creditorsOf_eq_nil bal).mp hnil p hp hpos
    have hboth : creditorsOf bal ≠ [] ∧ debtorsOf bal ≠ [] := by
      have htot := totalAmt_creditors_debtors bal
      rw [hsum] at htot
      rcases hCne with hC | hD
      · refine ⟨hC, fun hDnil => ?_⟩
        rw [hDnil] at htot
        have h0 : totalAmt ([] : List Party) = 0 := rfl
        cases hCl : creditorsOf bal with
        | nil => exact hC hCl
        | cons q qs =>
          have hpos := totalAmt_pos q qs (fun r hr =>
            creditorsOf_pos bal r (hCl ▸ hr))
          rw [hCl] at htot
          omega
      · refine ⟨fun hCnil => ?_, hD⟩
        rw [hCnil] at htot
        have h0 : totalAmt ([] : List Party) = 0 := rfl
        cases hDl : debtorsOf bal with
        | nil => exact hD hDl
        | cons q qs =>
          have hpos := totalAmt_pos q qs (fun r hr =>
            debtorsOf_pos bal r (hDl ▸ hr))
          rw [hDl] at htot
          omega
    obtain ⟨hC, hD⟩ := hboth
    have hCs : sortDesc (creditorsOf bal) ≠ [] := by
      intro hnil
      have := sortDesc_length (creditorsOf bal)
      rw [hnil] at this
      exact hC (List.length_eq_zero.mp this.symm)
    have hDs : sortDesc (debtorsOf bal) ≠ [] := by
      intro hnil
      have := sortDesc_length (debtorsOf bal)
      rw [hnil] at this
      exact hD (List.length_eq_zero.mp this.symm)
    unfold simplifyDebts at h
    cases hCl : sortDesc (creditorsOf bal) with
    | nil => exact hCs hCl
    | cons c cs =>
      cases hDl : sortDesc (debtorsOf bal) with
      | nil => exact hDs hDl
      | cons d ds =>
        rw [hCl, hDl] at h
        have hc : 0 < c.amount := by
          apply creditorsOf_pos bal c
          rw [← sortDesc_mem]
          rw [hCl]
          simp
        have hd : 0 < d.amount := by
          apply debtorsOf_pos bal d
          rw [← sortDesc_mem]
          rw [hDl]
          simp
        exact greedy_ne_nil c cs d ds hc hd h
  · intro h
    unfold simplifyDebts
    have hC : creditorsOf bal = [] :=
      (creditorsOf_eq_nil bal).mpr (fun p hp => by rw [h p hp]; omega)
    rw [hC]
    have : sortDesc ([] : List Party) = [] := rfl
    rw [this, greedy]

theorem creditorsOf_mem_src (bal : List (Addr × ℤ)) (p : Party)
    (hp : p ∈ creditorsOf bal) : (p.address, p.amount) ∈ bal ∧ 0 < p.amount := by
  rcases List.mem_map.mp hp with ⟨q, hq, rfl⟩
  have h1 := List.mem_of_mem_filter hq
  have h2 := (List.mem_filter.mp hq).2
  simp at h2
  exact ⟨h1, h2⟩

theorem debtorsOf_mem_src (bal : List (Addr × ℤ)) (p : Party)
    (hp : p ∈ debtorsOf bal) : (p.address, -p.amount) ∈ bal ∧ 0 < p.amount := by
  rcases List.mem_map.mp hp with ⟨q, hq, rfl⟩
  have h1 := List.mem_of_mem_filter hq
  have h2 := (List.mem_filter.mp hq).2
  simp at h2
  constructor
  · simpa using h1
  · simp
    omega

/-- Entry well-formedness of `simplifyDebts` under unique keys: positive
amounts and debtor distinct from creditor. -/
theorem simplifyDebts_wellFormed (bal : List (Addr × ℤ))
    (hk : (keysOf bal).Nodup) :
    ∀ e ∈ simplifyDebts bal, 0 < e.amount ∧ e.fromAddr ≠ e.toAddr := by
  intro e he
  unfold simplifyDebts at he
  rcases greedy_mem _ _ e he with ⟨h1, h2, h3⟩
  rw [sortDesc_map_address] at h2 h3
  refine ⟨h1, fun heq => ?_⟩
  rcases List.mem_map.mp h2 with ⟨qc, hqc, hqc2⟩
  rcases List.mem_map.mp h3 with ⟨qd, hqd, hqd2⟩
  rcases creditorsOf_mem_src bal qc hqc with ⟨hcmem, hcpos⟩
  rcases debtorsOf_mem_src bal qd hqd with ⟨hdmem, hdpos⟩
  have hsame : qd.address = qc.address := by rw [hqd2, hqc2, heq]
  rw [hsame] at hdmem
  have := value_unique_of_nodup_keys bal hk qc.address qc.amount (-qd.amount)
    hcmem hdmem
  omega

/-- The max-scan inside the contract's `getSimplifiedDebts` (one pass over
`balances`): update `(maxCredit, maxCreditorIdx)` when `balances[i] > maxCredit`
and `(maxDebt, maxDebtorIdx)` when `balances[i] < maxDebt`, both starting
from `0` at index `0`. -/
def scanMaxAux : List ℤ → ℕ → (ℤ × ℕ) → (ℤ × ℕ) → (ℤ × ℕ) × (ℤ × ℕ)
  | [], _, cAcc, dAcc => (cAcc, dAcc)
  | b :: bs, i, cAcc, dAcc =>
    scanMaxAux bs (i + 1)
      (if cAcc.1 < b then (b, i) else cAcc)
      (if b < dAcc.1 then (b, i) else dAcc)

def scanMax (bal : List ℤ) : (ℤ × ℕ) × (ℤ × ℕ) := scanMaxAux bal 0 (0, 0) (0, 0)

/-- One iteration of the `getSimplifiedDebts` loop: scan for the maximal
creditor and debtor, stop when either side is exhausted
(`maxCredit <= 0 || maxDebt >= 0`), otherwise record
`min(maxCredit, -maxDebt)` between exactly those two indices and update the
two balances. -/
def chainRound (members : List Addr) (bal : List ℤ) :
    Option (SimplifiedDebt × List ℤ) :=
  let s := scanMax bal
  let maxCredit := s.1.1
  let maxCreditorIdx := s.1.2
  let maxDebt := s.2.1
  let maxDebtorIdx := s.2.2
  if maxCredit ≤ 0 ∨ 0 ≤ maxDebt then none
  else
    let settlementAmount := if maxCredit < -maxDebt then maxCredit else -maxDebt
    let bal1 := bal.set maxCreditorIdx (bal.getD maxCreditorIdx 0 - settlementAmount)
    let bal2 := bal1.set maxDebtorIdx (bal1.getD maxDebtorIdx 0 + settlementAmount)
    some (⟨members.getD maxDebtorIdx "", members.getD maxCreditorIdx "",
      settlementAmount⟩, bal2)

/-- The bounded loop of `getSimplifiedDebts`: at most `memberLen` iterations,
breaking as soon as a round finds no positive credit or no negative debt. -/
def chainLoop (members : List Addr) : ℕ → List ℤ → List SimplifiedDebt
  | 0, _ => []
  | n + 1, bal =>
    match chainRound members bal with
    | none => []
    | some (e, bal2) => e :: chainLoop members n bal2

/-- The contract's `getSimplifiedDebts` view, over the group's member list
and its balance mapping. -/
def getSimplifiedDebts (members : List Addr) (balFn : Addr → ℤ) :
    List SimplifiedDebt :=
  chainLoop members members.length (members.map balFn)

theorem scanMaxAux_credit (bs : List ℤ) : ∀ (i : ℕ) (cAcc dAcc : ℤ × ℕ),
    cAcc.1 ≤ (scanMaxAux bs i cAcc dAcc).1.1 ∧
    (∀ j, j < bs.length → bs.getD j 0 ≤ (scanMaxAux bs i cAcc dAcc).1.1) ∧
    ((scanMaxAux bs i cAcc dAcc).1 = cAcc ∨
      ∃ j, j < bs.length ∧ bs.getD j 0 = (scanMaxAux bs i cAcc dAcc).1.1 ∧
        (scanMaxAux bs i cAcc dAcc).1.2 = i + j) := by
  induction bs with
  | nil =>
    intro i cAcc dAcc
    exact ⟨le_refl _, fun j hj => absurd hj (by simp), Or.inl rfl⟩
  | cons b bs ih =>
    intro i cAcc dAcc
    rw [scanMaxAux]
    set cAcc2 := if cAcc.1 < b then (b, i) else cAcc with hcAcc2
    set dAcc2 := if b < dAcc.1 then (b, i) else dAcc with hdAcc2
    obtain ⟨iha, ihb, ihc⟩ := ih (i + 1) cAcc2 dAcc2
    have hle : cAcc.1 ≤ cAcc2.1 := by
      rw [hcAcc2]
      by_cases h : cAcc.1 < b
      · rw [if_pos h]; omega
      · rw [if_neg h]
    have hble : b ≤ cAcc2.1 := by
      rw [hcAcc2]
      by_cases h : cAcc.1 < b
      · rw [if_pos h]
      · rw [if_neg h]; omega
    refine ⟨le_trans hle iha, ?_, ?_⟩
    · intro j hj
      cases j with
      | zero =>
        rw [List.getD_cons_zero]
        exact le_trans hble iha
      | succ j =>
        rw [List.getD_cons_succ]
        exact ihb j (by simpa using hj)
    · rcases ihc with h | ⟨j, hj1, hj2, hj3⟩
      · rw [h, hcAcc2]
        by_cases hc : cAcc.1 < b
        · right
          refine ⟨0, by simp, ?_, ?_⟩
          · rw [List.getD_cons_zero, if_pos hc]
          · rw [if_pos hc]
            simp
        · left
          rw [if_neg hc]
      · right
        refine ⟨j + 1, by simpa using hj1, ?_, ?_⟩
        · rw [List.getD_cons_succ]
          exact hj2
        · rw [hj3]
          omega

theorem scanMaxAux_debt (bs : List ℤ) : ∀ (i : ℕ) (cAcc dAcc : ℤ × ℕ),
    (scanMaxAux bs i cAcc dAcc).2.1 ≤ dAcc.1 ∧
    (∀ j, j < bs.length → (scanMaxAux bs i cAcc dAcc).2.1 ≤ bs.getD j 0) ∧
    ((scanMaxAux bs i cAcc dAcc).2 = dAcc ∨
      ∃ j, j < bs.length ∧ bs.getD j 0 = (scanMaxAux bs i cAcc dAcc).2.1 ∧
        (scanMaxAux bs i cAcc dAcc).2.2 = i + j) := by
  induction bs with
  | nil =>
    intro i cAcc dAcc
    exact ⟨le_refl _, fun j hj => absurd hj (by simp), Or.inl rfl⟩
  | cons b bs ih =>
    intro i cAcc dAcc
    rw [scanMaxAux]
    set cAcc2 := if cAcc.1 < b then (b, i) else cAcc with hcAcc2
    set dAcc2 := if b < dAcc.1 then (b, i) else dAcc with hdAcc2
    obtain ⟨iha, ihb, ihc⟩ := ih (i + 1) cAcc2 dAcc2
    have hle : dAcc2.1 ≤ dAcc.1 := by
      rw [hdAcc2]
      by_cases h : b < dAcc.1
      · rw [if_pos h]; omega
      · rw [if_neg h]
    have hble : dAcc2.1 ≤ b := by
      rw [hdAcc2]
      by_cases h : b < dAcc.1
      · rw [if_pos h]
      · rw [if_neg h]; omega
    refine ⟨le_trans iha hle, ?_, ?_⟩
    · intro j hj
      cases j with
      | zero =>
        rw [List.getD_cons_zero]
        exact le_trans iha hble
      | succ j =>
        rw [List.getD_cons_succ]
        exact ihb j (by simpa using hj)
    · rcases ihc with h | ⟨j, hj1, hj2, hj3⟩
      · rw [h, hdAcc2]
        by_cases hd : b < dAcc.1
        · right
          refine ⟨0, by simp, ?_, ?_⟩
          · rw [List.getD_cons_zero, if_pos hd]
          · rw [if_pos hd]
            simp
        · left
          rw [if_neg hd]
      · right
        refine ⟨j + 1, by simpa using hj1, ?_, ?_⟩
        · rw [List.getD_cons_succ]
          exact hj2
        · rw [hj3]
          omega

/-- Whenever a round of the contract's simplification loop emits an entry,
the chosen creditor index attains the maximum balance, the chosen debtor
index attains the minimum balance, and the settled amount is
`min(maxCredit, -maxDebt)` between exactly those two indices. -/
theorem chainRound_selects (members : List Addr) (bal : List ℤ)
    (e : SimplifiedDebt) (bal2 : List ℤ)
    (h : chainRound members bal = some (e, bal2)) :
    0 < (scanMax bal).1.1 ∧ (scanMax bal).2.1 < 0 ∧
    (∀ j, j < bal.length → bal.getD j 0 ≤ (scanMax bal).1.1) ∧
    bal.getD (scanMax bal).1.2 0 = (scanMax bal).1.1 ∧
    (∀ j, j < bal.length → (scanMax bal).2.1 ≤ bal.getD j 0) ∧
    bal.getD (scanMax bal).2.2 0 = (scanMax bal).2.1 ∧
    e.amount = min (scanMax bal).1.1 (-(scanMax bal).2.1) ∧
    e.toAddr = members.getD (scanMax bal).1.2 "" ∧
    e.fromAddr = members.getD (scanMax bal).2.2 "" := by
  unfold chainRound at h
  by_cases hg : (scanMax bal).1.1 ≤ 0 ∨ 0 ≤ (scanMax bal).2.1
  · rw [if_pos hg] at h
    cases h
  · rw [if_neg hg] at h
    push_neg at hg
    obtain ⟨hmc, hmd⟩ := hg
    injection h with h1
    injection h1 with hA hB
    obtain ⟨_, hcbound, hcattain⟩ := scanMaxAux_credit bal 0 (0, 0) (0, 0)
    obtain ⟨_, hdbound, hdattain⟩ := scanMaxAux_debt bal 0 (0, 0) (0, 0)
    have hsm : scanMax bal = scanMaxAux bal 0 (0, 0) (0, 0) := rfl
    rw [← hsm] at hcbound hcattain hdbound hdattain
    have hcat : bal.getD (scanMax bal).1.2 0 = (scanMax bal).1.1 := by
      rcases hcattain with hc0 | ⟨j, hj1, hj2, hj3⟩
      · rw [hc0] at hmc
        simp at hmc
      · rw [hj3]
        simpa using hj2
    have hdat : bal.getD (scanMax bal).2.2 0 = (scanMax bal).2.1 := by
      rcases hdattain with hd0 | ⟨j, hj1, hj2, hj3⟩
      · rw [hd0] at hmd
        simp at hmd
      · rw [hj3]
        simpa using hj2
    refine ⟨hmc, hmd, hcbound, hcat, hdbound, hdat, ?_, ?_, ?_⟩
    · rw [← hA]
      show (if (scanMax bal).1.1 < -(scanMax bal).2.1 then (scanMax bal).1.1
        else -(scanMax bal).2.1) = _
      rw [min_def]
      by_cases hcm : (scanMax bal).1.1 < -(scanMax bal).2.1
      · rw [if_pos hcm, if_pos (le_of_lt hcm)]
      · by_cases hle : (scanMax bal).1.1 ≤ -(scanMax bal).2.1
        · rw [if_neg hcm, if_pos hle]
          omega
        · rw [if_neg hcm, if_neg hle]
    · rw [← hA]
    · rw [← hA]

/-- The off-chain greedy loop always settles `min(creditor.amount,
debtor.amount)` between the creditor and debtor currently at the heads of
the (descending-sorted) lists. -/
theorem greedy_head (c : Party) (cs : List Party) (d : Party) (ds : List Party)
    (hc : 0 < c.amount) (hd : 0 < d.amount) :
    ∃ rest, greedy (c :: cs) (d :: ds) =
      ⟨d.address, c.address, min c.amount d.amount⟩ :: rest := by
  rw [greedy]
  by_cases hlt : c.amount < d.amount
  · have hm : min c.amount d.amount = c.amount := min_eq_left (le_of_lt hlt)
    exact ⟨greedy cs (⟨d.address, d.amount - c.amount⟩ :: ds),
      by simp only [if_pos hlt, if_pos hc, hm, List.singleton_append]⟩
  · by_cases hgt : d.amount < c.amount
    · have hm : min c.amount d.amount = d.amount := min_eq_right (le_of_lt hgt)
      exact ⟨greedy (⟨c.address, c.amount - d.amount⟩ :: cs) ds,
        by simp only [if_neg hlt, if_pos hgt, if_pos hd, hm, List.singleton_append]⟩
    · have heq : c.amount = d.amount := by omega
      have hm : min c.amount d.amount = d.amount := min_eq_right (le_of_eq heq.symm)
      exact ⟨greedy cs ds,
        by simp only [if_neg hlt, if_neg hgt, if_pos hd, hm, List.singleton_append]⟩

/-- The contract's `settleDebt` (SplitChain.sol lines 367-390) as a
transition on one group's balances.  The guards appear in source order:
the `onlyMember` modifier, the `nonReentrant` lock, then the body's
`require`s (`creditor != sender`, creditor membership, `msg.value > 0`,
caller balance negative, creditor balance positive, no overpayment past
zero).  `none` models a revert; on success the result carries the updated
balances and the ETH value transferred to the creditor, the external call
being executed while the lock is held. -/
def settleDebt (locked : Bool) (isMember : Addr → Bool) (bal : Addr → ℤ)
    (sender creditor : Addr) (msgValue : ℤ) : Option ((Addr → ℤ) × ℤ) :=
  if !(isMember sender) then none
  else if locked then none
  else if creditor = sender then none
  else if !(isMember creditor) then none
  else if msgValue ≤ 0 then none
  else
    let myBalance := bal sender
    let creditorBalance := bal creditor
    if 0 ≤ myBalance then none
    else if creditorBalance ≤ 0 then none
    else if -myBalance < msgValue then none
    else
      let b1 := mset bal sender (bal sender + msgValue)
      let b2 := mset b1 creditor (b1 creditor - msgValue)
      some (b2, msgValue)

structure SettlementRow where
  groupId : ℕ
  fromAddress : String
  toAddress : String
  amount : ℤ
  txHash : Option String
deriving Repr, DecidableEq

/-- The settlements POST route: after presence validation of the required
fields it unconditionally inserts a row via `prisma.settlement.create`.
The `Settlement` table of the SQLite migration declares `"txHash" TEXT`
nullable and with no uniqueness constraint, so the insert never fails on an
already-recorded reference.  `txHash || null` maps an absent or empty
reference to `none`; addresses are lowercased. -/
def postSettlement (db : List SettlementRow) (groupId : ℕ)
    (fromAddress toAddress : String) (amount : ℤ) (txHash : Option String) :
    Option (List SettlementRow) :=
  if groupId = 0 ∨ fromAddress = "" ∨ toAddress = "" ∨ amount = 0 then none
  else
    let storedTx : Option String :=
      match txHash with
      | none => none
      | some h => if h = "" then none else some h
    some (db ++ [⟨groupId, fromAddress.toLower, toAddress.toLower, amount, storedTx⟩])

/-- Number of stored settlement rows carrying the external reference `r`. -/
def refCount (db : List SettlementRow) (r : String) : ℕ :=
  (db.filter (fun row => row.txHash == some r)).length

/-- The debit amounts applied by the off-chain expense loop: one
`sharePerPerson` debit per participant entry distinct from the payer
(the `addr === payer` branch skips both updates). -/
def expenseStepDebits (e : Expense) : List ℤ :=
  if e.participants.length = 0 then []
  else (e.participants.filter (fun a => a != e.payerAddress)).map
    (fun _ => Int.tdiv e.amount (e.participants.length : ℤ))

/-- The debit amounts applied by the contract's `addExpense` loop: one
`sharePerPerson` debit per participant entry. -/
def addExpenseDebits (amount : ℤ) (participants : List Addr) : List ℤ :=
  participants.map (fun _ => Int.tdiv amount (participants.length : ℤ))

/-- The expense balance update exactly as the specification words it
(credit the payer the full `amount`, then debit `share` from every
participant, the payer included); written for comparison with the
aggregator's `expenseStep`. -/
def expenseStepClaimed (bal : Addr → ℤ) (e : Expense) : Addr → ℤ :=
  let share := Int.tdiv e.amount (e.participants.length : ℤ)
  let b1 := mset bal e.payerAddress (bal e.payerAddress + e.amount)
  e.participants.foldl (fun b p => mset b p (b p - share)) b1

/-- C1 (code_bug evidence).  Closed-ledger invariant: the off-chain
aggregator's balances sum to zero over any nodup member list covering all
touched addresses, after every sequence of expenses and settlements; the
on-chain `addExpense`, however, credits the payer the full amount while
debiting only floored shares, so a single 3-wei expense split between the
two members of a fresh group leaves the contract's balances summing to 1. -/
theorem C1_closed_ledger :
    (∀ (L : List Addr) (es : List Expense) (ss : List Settlement),
      L.Nodup →
      (∀ e ∈ es, e.payerAddress ∈ L ∧ ∀ a ∈ e.participants, a ∈ L) →
      (∀ s ∈ ss, s.fromAddress ∈ L ∧ s.toAddress ∈ L) →
      sumOver L (calculateBalances es ss) = 0) ∧
    sumOver ["p", "q"]
      (addExpense (fun a => a == "p" || a == "q") (fun _ => 0) "p" 3 ["p", "q"]) = 1 := by
  constructor
  · intro L es ss h1 h2 h3
    exact calculateBalances_sumOver L h1 es ss h2 h3
  · decide

/-- Witness for C1: one concrete expense and one settlement, summing to 0
off-chain. -/
theorem C1_closed_ledger_witness :
    sumOver ["p", "q"] (calculateBalances [⟨"p", 3, ["p", "q"]⟩] [⟨"q", "p", 1⟩]) = 0 ∧
    sumOver ["p", "q"]
      (addExpense (fun a => a == "p" || a == "q") (fun _ => 0) "p" 3 ["p", "q"]) = 1 :=
  ⟨C1_closed_ledger.1 ["p", "q"] [⟨"p", 3, ["p", "q"]⟩] [⟨"q", "p", 1⟩]
    (by decide) (by decide) (by decide), C1_closed_ledger.2⟩

/-- C2 counterexample: for the expense (payer "p", amount 5, participants
["p", "q"]) the aggregator leaves the payer at +2 (one `share` credit per
co-participant), while the claimed update (credit the full amount, debit
every participant's share including the payer's) would leave the payer at
+3. -/
theorem C2_counterexample :
    calculateBalances [⟨"p", 5, ["p", "q"]⟩] [] "p" ≠
      expenseStepClaimed (fun _ => 0) ⟨"p", 5, ["p", "q"]⟩ "p" ∧
    calculateBalances [⟨"p", 5, ["p", "q"]⟩] [] "p" = 2 ∧
    expenseStepClaimed (fun _ => 0) ⟨"p", 5, ["p", "q"]⟩ "p" = 3 := by
  refine ⟨?_, by decide, by decide⟩
  decide

/-- C2 (amended).  For every expense with positive amount and non-empty,
duplicate-free participant list, the aggregator computes
`share = floor(amount / participantCount)` and then, for each participant
other than the payer, credits the payer `share` and debits that participant
`share`; the payer's own share is never applied, so the payer nets
`share · (number of non-payer participants)`. -/
theorem C2_aggregator_step (bal : Addr → ℤ) (e : Expense)
    (hpos : 0 < e.amount) (hne : e.participants ≠ [])
    (hnd : e.participants.Nodup) :
    expenseStep bal e e.payerAddress =
      bal e.payerAddress + Int.tdiv e.amount (e.participants.length : ℤ) *
        (((e.participants.filter (fun a => a != e.payerAddress)).length : ℕ) : ℤ) ∧
    ∀ p ∈ e.participants, p ≠ e.payerAddress →
      expenseStep bal e p = bal p - Int.tdiv e.amount (e.participants.length : ℤ) := by
  constructor
  · rw [expenseStep_delta bal e _ hne, if_pos rfl, count_payer_filter]
    push_cast
    ring
  · intro p hp hpp
    rw [expenseStep_delta bal e p hne, if_neg hpp]
    have hc1 : e.participants.count p = 1 := List.count_eq_one_of_mem hnd hp
    have hcount : (e.participants.filter (fun a => a != e.payerAddress)).count p = 1 := by
      rw [List.count_filter (by simpa using hpp)]
      exact hc1
    rw [hcount]
    push_cast
    ring

/-- Witness for C2 (amended): amount 7 split across ["p","q","r"] with
payer "p": share 2, payer nets +4, each other participant −2. -/
theorem C2_aggregator_step_witness :
    expenseStep (fun _ => 0) ⟨"p", 7, ["p", "q", "r"]⟩ "p" = 4 ∧
    expenseStep (fun _ => 0) ⟨"p", 7, ["p", "q", "r"]⟩ "q" = -2 := by
  have h := C2_aggregator_step (fun _ => 0) ⟨"p", 7, ["p", "q", "r"]⟩
    (by decide) (by decide) (by decide)
  constructor
  · rw [h.1]
    decide
  · rw [h.2 "q" (by decide) (by decide)]
    decide

/-- C3 (code_bug evidence).  The off-chain aggregator and the on-chain
`addExpense` disagree on the payer's balance for a 3-wei expense split
between two members (payer included): off-chain +1, on-chain +2; the
non-payer participant agrees at −1 on both sides. -/
theorem C3_divergence :
    calculateBalances [⟨"p", 3, ["p", "q"]⟩] [] "p" ≠
      addExpense (fun a => a == "p" || a == "q") (fun _ => 0) "p" 3 ["p", "q"] "p" ∧
    calculateBalances [⟨"p", 3, ["p", "q"]⟩] [] "p" = 1 ∧
    addExpense (fun a => a == "p" || a == "q") (fun _ => 0) "p" 3 ["p", "q"] "p" = 2 ∧
    calculateBalances [⟨"p", 3, ["p", "q"]⟩] [] "q" =
      addExpense (fun a => a == "p" || a == "q") (fun _ => 0) "p" 3 ["p", "q"] "q" := by
  refine ⟨?_, by decide, by decide, by decide⟩
  decide

/-- C4 counterexample: on the (non-zero-sum) balance map with the single
entry ("a", 1), `simplifyDebts` returns no entries, so the amounts credited
to the creditor "a" total 0, not its positive balance 1. -/
theorem C4_counterexample :
    ("a", (1 : ℤ)) ∈ [("a", (1 : ℤ))] ∧ (0 : ℤ) < 1 ∧
    creditTo "a" (simplifyDebts [("a", 1)]) = 0 ∧ (0 : ℤ) ≠ 1 := by
  refine ⟨by decide, by decide, ?_, by decide⟩
  have h : simplifyDebts [("a", (1 : ℤ))] = [] := by
    simp [simplifyDebts, creditorsOf, debtorsOf, sortDesc, insertDesc, greedy]
  rw [h]
  rfl

/-- C4 (amended).  Simplification conservation on zero-sum balance maps
with unique keys: the entries credited to a creditor total exactly its
positive balance, and the entries debited from a debtor total exactly its
debt magnitude. -/
theorem C4_conservation (bal : List (Addr × ℤ)) (hk : (keysOf bal).Nodup)
    (hsum : balSum bal = 0) (x : Addr) (v : ℤ) (hmem : (x, v) ∈ bal) :
    (0 < v → creditTo x (simplifyDebts bal) = v) ∧
    (v < 0 → debitFrom x (simplifyDebts bal) = -v) :=
  simplifyDebts_conservation bal hk hsum x v hmem

/-- Witness for C4: on the map a:+2, b:−1, c:−1 the creditor "a" is paid
exactly 2 in total and the debtor "b" pays exactly 1 in total. -/
theorem C4_conservation_witness :
    creditTo "a" (simplifyDebts [("a", 2), ("b", -1), ("c", -1)]) = 2 ∧
    debitFrom "b" (simplifyDebts [("a", 2), ("b", -1), ("c", -1)]) = 1 := by
  have h1 := C4_conservation [("a", 2), ("b", -1), ("c", -1)]
    (by decide) (by decide) "a" 2 (by decide)
  have h2 := C4_conservation [("a", 2), ("b", -1), ("c", -1)]
    (by decide) (by decide) "b" (-1) (by decide)
  refine ⟨h1.1 (by decide), ?_⟩
  have := h2.2 (by decide)
  simpa using this

/-- C5 counterexample: on the balance map a:+10, b:+9, c:−6, d:−13 the
off-chain `simplifyDebts` settles its second round with debtor "d"
(remaining debt 3) although "c" still holds the larger remaining debt 6 —
its one-time descending sort fixes the pointer order — whereas the
contract's `getSimplifiedDebts`, which rescans for the maximum each round,
produces the largest-to-largest sequence; the two results differ. -/
theorem C5_counterexample :
    simplifyDebts [("a", 10), ("b", 9), ("c", -6), ("d", -13)] =
      [⟨"d", "a", 10⟩, ⟨"d", "b", 3⟩, ⟨"c", "b", 6⟩] ∧
    getSimplifiedDebts ["a", "b", "c", "d"]
      (fun a => if a = "a" then 10 else if a = "b" then 9 else
        if a = "c" then -6 else if a = "d" then -13 else 0) =
      [⟨"d", "a", 10⟩, ⟨"c", "b", 6⟩, ⟨"d", "b", 3⟩] ∧
    ([⟨"d", "a", 10⟩, ⟨"d", "b", 3⟩, ⟨"c", "b", 6⟩] : List SimplifiedDebt) ≠
      [⟨"d", "a", 10⟩, ⟨"c", "b", 6⟩, ⟨"d", "b", 3⟩] := by
  refine ⟨?_, by decide, by decide⟩
  simp [simplifyDebts, creditorsOf, debtorsOf, sortDesc, insertDesc, greedy]

/-- C5 (amended).  Every entry-emitting round of the contract's
simplification loop selects a creditor attaining the maximum remaining
balance and a debtor attaining the minimum, and settles
`min(maxCredit, −maxDebt)` between exactly those two; the off-chain
`simplifyDebts` instead always settles `min` between the creditor and
debtor currently at the heads of its once-sorted lists. -/
theorem C5_round_selection :
    (∀ (members : List Addr) (bal : List ℤ) (e : SimplifiedDebt) (bal2 : List ℤ),
      chainRound members bal = some (e, bal2) →
      (∀ j, j < bal.length → bal.getD j 0 ≤ (scanMax bal).1.1) ∧
      bal.getD (scanMax bal).1.2 0 = (scanMax bal).1.1 ∧
      (∀ j, j < bal.length → (scanMax bal).2.1 ≤ bal.getD j 0) ∧
      bal.getD (scanMax bal).2.2 0 = (scanMax bal).2.1 ∧
      e.amount = min (scanMax bal).1.1 (-(scanMax bal).2.1) ∧
      e.toAddr = members.getD (scanMax bal).1.2 "" ∧
      e.fromAddr = members.getD (scanMax bal).2.2 "") ∧
    (∀ (c : Party) (cs : List Party) (d : Party) (ds : List Party),
      0 < c.amount → 0 < d.amount →
      ∃ rest, greedy (c :: cs) (d :: ds) =
        ⟨d.address, c.address, min c.amount d.amount⟩ :: rest) := by
  constructor
  · intro members bal e bal2 h
    obtain ⟨_, _, h3, h4, h5, h6, h7, h8, h9⟩ := chainRound_selects members bal e bal2 h
    exact ⟨h3, h4, h5, h6, h7, h8, h9⟩
  · exact greedy_head

/-- Witness for C5: one emitted round on balances [3, −3] selects index 0
as maximal creditor, and the off-chain matcher emits a first entry on two
positive heads. -/
theorem C5_round_selection_witness :
    [(3 : ℤ), -3].getD (scanMax [(3 : ℤ), -3]).1.2 0 = (scanMax [(3 : ℤ), -3]).1.1 ∧
    greedy [⟨"a", 3⟩] [⟨"b", 3⟩] ≠ [] := by
  have h1 := C5_round_selection.1 ["a", "b"] [3, -3] ⟨"b", "a", 3⟩ [0, 0] (by decide)
  have h2 := C5_round_selection.2 ⟨"a", 3⟩ [] ⟨"b", 3⟩ [] (by decide) (by decide)
  refine ⟨h1.2.1, ?_⟩
  obtain ⟨rest, hrest⟩ := h2
  rw [hrest]
  simp

/-- C6 counterexample: on the (non-zero-sum) balance map with the single
entry ("a", 2), `simplifyDebts` returns zero entries although not all
balances are zero, refuting the unconditional "zero entries iff all
balances zero". -/
theorem C6_counterexample :
    simplifyDebts [("a", (2 : ℤ))] = [] ∧
    ¬(∀ p ∈ [("a", (2 : ℤ))], p.2 = 0) := by
  constructor
  · simp [simplifyDebts, creditorsOf, debtorsOf, sortDesc, insertDesc, greedy]
  · decide

/-- C6 (amended).  `simplifyDebts` returns at most `n − 1` entries for `n`
members with nonzero balance (truncated subtraction), and on a zero-sum
balance map it returns zero entries exactly when every balance is zero. -/
theorem C6_bound_and_empty (bal : List (Addr × ℤ)) :
    (simplifyDebts bal).length ≤
      (bal.filter (fun p => decide (p.2 ≠ 0))).length - 1 ∧
    (balSum bal = 0 → (simplifyDebts bal = [] ↔ ∀ p ∈ bal, p.2 = 0)) :=
  ⟨simplifyDebts_length bal, fun hsum => simplifyDebts_eq_nil_iff bal hsum⟩

/-- Witness for C6 at the map a:+2, b:−2. -/
theorem C6_bound_and_empty_witness :
    (simplifyDebts [("a", 2), ("b", -2)]).length ≤ 1 ∧
    (simplifyDebts [("a", 2), ("b", -2)] = [] ↔
      ∀ p ∈ [("a", (2 : ℤ)), ("b", -2)], p.2 = 0) := by
  have h := C6_bound_and_empty [("a", 2), ("b", -2)]
  refine ⟨?_, h.2 (by decide)⟩
  have h1 := h.1
  have hf : ([("a", (2 : ℤ)), ("b", -2)].filter
      (fun p => decide (p.2 ≠ 0))).length = 2 := by decide
  rw [hf] at h1
  exact h1

/-- C7 counterexample: recording the same reference "tx1" twice succeeds
both times and leaves two stored settlement rows carrying that reference;
nothing fails and no duplicate is rejected. -/
theorem C7_counterexample :
    postSettlement [] 1 "0xa" "0xb" 50 (some "tx1") =
      some [⟨1, "0xa".toLower, "0xb".toLower, 50, some "tx1"⟩] ∧
    postSettlement [⟨1, "0xa".toLower, "0xb".toLower, 50, some "tx1"⟩] 1
        "0xa" "0xb" 50 (some "tx1") =
      some [⟨1, "0xa".toLower, "0xb".toLower, 50, some "tx1"⟩,
        ⟨1, "0xa".toLower, "0xb".toLower, 50, some "tx1"⟩] ∧
    refCount [⟨1, "0xa".toLower, "0xb".toLower, 50, some "tx1"⟩,
      ⟨1, "0xa".toLower, "0xb".toLower, 50, some "tx1"⟩] "tx1" = 2 := by
  refine ⟨?_, ?_, ?_⟩
  · unfold postSettlement
    rw [if_neg (by decide)]
    dsimp only
    rw [if_neg (by decide)]
    simp
  · unfold postSettlement
    rw [if_neg (by decide)]
    dsimp only
    rw [if_neg (by decide)]
    simp
  · rfl

/-- C7 (amended).  `recordSettlement` performs no duplicate-reference
check: for any stored rows and any valid input carrying a nonempty
reference, the POST handler succeeds and appends a row, so the number of
rows carrying that reference always grows by one — duplicates included. -/
theorem C7_always_inserts (db : List SettlementRow) (groupId : ℕ)
    (f t : String) (amount : ℤ) (r : String)
    (hg : groupId ≠ 0) (hf : f ≠ "") (ht : t ≠ "") (ha : amount ≠ 0)
    (hr : r ≠ "") :
    postSettlement db groupId f t amount (some r) =
      some (db ++ [⟨groupId, f.toLower, t.toLower, amount, some r⟩]) ∧
    refCount (db ++ [⟨groupId, f.toLower, t.toLower, amount, some r⟩]) r =
      refCount db r + 1 := by
  constructor
  · unfold postSettlement
    rw [if_neg (by push_neg; exact ⟨hg, hf, ht, ha⟩)]
    dsimp only
    rw [if_neg hr]
  · simp [refCount, List.filter_append]

/-- Witness for C7 (amended) on an empty store. -/
theorem C7_always_inserts_witness :
    postSettlement [] 1 "A" "B" 5 (some "t1") =
      some [⟨1, "A".toLower, "B".toLower, 5, some "t1"⟩] ∧
    refCount [⟨1, "A".toLower, "B".toLower, 5, some "t1"⟩] "t1" =
      refCount [] "t1" + 1 := by
  have h := C7_always_inserts [] 1 "A" "B" 5 "t1"
    (by decide) (by decide) (by decide) (by decide) (by decide)
  simpa using h

/-- C8.  `settleDebt` reverts when the attached value is zero (or negative),
when the creditor is not a member, when the caller has no negative balance,
when the creditor has no positive balance, when the value exceeds the
caller's debt magnitude, or when the reentrancy lock is held (a nested
call); when every guard passes it returns the balances with the caller
credited and the creditor debited by `msg.value`, together with the value
transferred to the creditor. -/
theorem C8_settleDebt (locked : Bool) (isMember : Addr → Bool)
    (bal : Addr → ℤ) (sender creditor : Addr) (msgValue : ℤ) :
    ((msgValue = 0 ∨ isMember creditor = false ∨ 0 ≤ bal sender ∨
        bal creditor ≤ 0 ∨ -(bal sender) < msgValue ∨ locked = true) →
      settleDebt locked isMember bal sender creditor msgValue = none) ∧
    (isMember sender = true → locked = false → creditor ≠ sender →
      isMember creditor = true → 0 < msgValue → bal sender < 0 →
      0 < bal creditor → msgValue ≤ -(bal sender) →
      settleDebt locked isMember bal sender creditor msgValue =
        some (mset (mset bal sender (bal sender + msgValue)) creditor
          ((mset bal sender (bal sender + msgValue)) creditor - msgValue),
          msgValue)) := by
  constructor
  · intro hrej
    unfold settleDebt
    dsimp only
    split_ifs with h1 h2 h3 h4 h5 h6 h7 h8 <;> try rfl
    exfalso
    simp only [Bool.not_eq_true'] at h1 h4
    rcases hrej with h | h | h | h | h | h
    · omega
    · exact h4 h
    · omega
    · omega
    · omega
    · exact h2 h
  · intro hm hl hcs hc hv hbs hbc hover
    unfold settleDebt
    rw [if_neg (by simp [hm]), if_neg (by simp [hl]), if_neg hcs,
      if_neg (by simp [hc]), if_neg (by omega), if_neg (by omega),
      if_neg (by omega), if_neg (by omega)]

/-- Witness for C8: a zero-value call reverts; a 3-wei settlement of "p"'s
5-wei debt to "q" succeeds and moves both balances by 3. -/
theorem C8_settleDebt_witness :
    settleDebt false (fun a => a == "p" || a == "q")
      (fun x => if x = "p" then -5 else if x = "q" then 5 else 0)
      "p" "q" 0 = none ∧
    settleDebt false (fun a => a == "p" || a == "q")
      (fun x => if x = "p" then -5 else if x = "q" then 5 else 0)
      "p" "q" 3 =
      some (mset (mset (fun x => if x = "p" then -5 else if x = "q" then 5 else 0)
        "p" ((if ("p" : Addr) = "p" then (-5 : ℤ) else if ("p" : Addr) = "q" then 5 else 0) + 3))
        "q" ((mset (fun x => if x = "p" then -5 else if x = "q" then 5 else 0)
          "p" ((if ("p" : Addr) = "p" then (-5 : ℤ) else if ("p" : Addr) = "q" then 5 else 0) + 3)) "q" - 3),
        3) := by
  constructor
  · exact (C8_settleDebt false (fun a => a == "p" || a == "q")
      (fun x => if x = "p" then -5 else if x = "q" then 5 else 0)
      "p" "q" 0).1 (Or.inl rfl)
  · exact (C8_settleDebt false (fun a => a == "p" || a == "q")
      (fun x => if x = "p" then -5 else if x = "q" then 5 else 0)
      "p" "q" 3).2 (by decide) rfl (by decide) (by decide) (by decide)
      (by decide) (by decide) (by decide)

theorem sum_map_const_int (l : List Addr) (c : ℤ) :
    (l.map (fun _ => c)).sum = (l.length : ℤ) * c := by
  induction l with
  | nil => simp
  | cons a l ih =>
    simp only [List.map_cons, List.sum_cons, List.length_cons, ih]
    push_cast
    ring

/-- C9 counterexample: for the expense (payer "p", amount 10, participants
["p", "q"]) the aggregation step applies a single 5-unit debit (the payer's
own share is skipped), not `amount - (amount mod k) = 10`. -/
theorem C9_counterexample :
    (expenseStepDebits ⟨"p", 10, ["p", "q"]⟩).sum = 5 ∧
    (10 : ℤ) - Int.tmod 10 2 = 10 ∧ (5 : ℤ) ≠ 10 := by
  refine ⟨by decide, by decide, by decide⟩

/-- C9 (amended).  For every expense with positive amount and `k`
participants: the contract's debits total `amount - (amount mod k)` and
the uncredited remainder `amount mod k` is strictly below `k`; the
aggregator's debits总 instead total `share` per participant entry distinct
from the payer, which equals `amount - (amount mod k)` whenever the payer
is not among the participants. -/
theorem C9_rounding (e : Expense) (hne : e.participants ≠ [])
    (hpos : 0 < e.amount) :
    (addExpenseDebits e.amount e.participants).sum =
      e.amount - Int.tmod e.amount (e.participants.length : ℤ) ∧
    Int.tmod e.amount (e.participants.length : ℤ) < (e.participants.length : ℤ) ∧
    (e.payerAddress ∉ e.participants →
      (expenseStepDebits e).sum =
        e.amount - Int.tmod e.amount (e.participants.length : ℤ)) ∧
    (expenseStepDebits e).sum = Int.tdiv e.amount (e.participants.length : ℤ) *
      (((e.participants.filter (fun a => a != e.payerAddress)).length : ℕ) : ℤ) := by
  have hlen : (0 : ℤ) < (e.participants.length : ℤ) := by
    have h0 : e.participants.length ≠ 0 := by simpa using hne
    omega
  have hdm := Int.tdiv_add_tmod e.amount (e.participants.length : ℤ)
  have hsum4 : (expenseStepDebits e).sum =
      Int.tdiv e.amount (e.participants.length : ℤ) *
        (((e.participants.filter (fun a => a != e.payerAddress)).length : ℕ) : ℤ) := by
    unfold expenseStepDebits
    rw [if_neg (by simpa using hne), sum_map_const_int]
    ring
  refine ⟨?_, Int.tmod_lt_of_pos e.amount hlen, ?_, hsum4⟩
  · unfold addExpenseDebits
    rw [sum_map_const_int]
    linarith
  · intro hnp
    rw [hsum4]
    have hfeq : e.participants.filter (fun a => a != e.payerAddress) =
        e.participants := by
      apply List.filter_eq_self.mpr
      intro a ha
      simp only [bne_iff_ne, ne_eq, decide_eq_true_eq]
      exact fun h => hnp (h ▸ ha)
    rw [hfeq]
    have hdm2 : Int.tdiv e.amount (e.participants.length : ℤ) *
        (e.participants.length : ℤ) +
        Int.tmod e.amount (e.participants.length : ℤ) = e.amount := by
      rw [mul_comm]
      exact hdm
    linarith

/-- Witness for C9: amount 7 split among the 3 participants
["p", "q", "r"] with outside payer "x": debits total 6 on both sides and
the remainder 1 is below 3. -/
theorem C9_rounding_witness :
    (addExpenseDebits 7 ["p", "q", "r"]).sum = 7 - Int.tmod 7 3 ∧
    Int.tmod 7 3 < (3 : ℤ) ∧
    (expenseStepDebits ⟨"x", 7, ["p", "q", "r"]⟩).sum = 7 - Int.tmod 7 3 := by
  have h := C9_rounding ⟨"x", 7, ["p", "q", "r"]⟩ (by decide) (by decide)
  exact ⟨h.1, h.2.1, h.2.2.1 (by decide)⟩

theorem chainRound_length (members : List Addr) (bal : List ℤ)
    (e : SimplifiedDebt) (bal2 : List ℤ)
    (h : chainRound members bal = some (e, bal2)) : bal2.length = bal.length := by
  unfold chainRound at h
  by_cases hg : (scanMax bal).1.1 ≤ 0 ∨ 0 ≤ (scanMax bal).2.1
  · rw [if_pos hg] at h
    cases h
  · rw [if_neg hg] at h
    injection h with h1
    injection h1 with hA hB
    rw [← hB]
    simp [List.length_set]

/-- Every entry a round of the contract's loop emits has positive amount
and, over a duplicate-free member list, a debtor distinct from its
creditor. -/
theorem chainRound_wellFormed (members : List Addr) (bal : List ℤ)
    (hnd : members.Nodup) (hlen : bal.length = members.length)
    (e : SimplifiedDebt) (bal2 : List ℤ)
    (h : chainRound members bal = some (e, bal2)) :
    0 < e.amount ∧ e.fromAddr ≠ e.toAddr := by
  obtain ⟨hmc, hmd, _, hcat, _, hdat, hamt, hto, hfrom⟩ :=
    chainRound_selects members bal e bal2 h
  constructor
  · rw [hamt]
    omega
  · have hci : (scanMax bal).1.2 < bal.length := by
      by_contra hout
      push_neg at hout
      rw [List.getD_eq_default _ _ hout] at hcat
      omega
    have hdi : (scanMax bal).2.2 < bal.length := by
      by_contra hout
      push_neg at hout
      rw [List.getD_eq_default _ _ hout] at hdat
      omega
    have hne : (scanMax bal).1.2 ≠ (scanMax bal).2.2 := by
      intro heq
      rw [heq, hdat] at hcat
      omega
    rw [hto, hfrom]
    rw [hlen] at hci hdi
    rw [List.getD_eq_getElem _ _ hci, List.getD_eq_getElem _ _ hdi]
    intro heq
    exact hne (List.Nodup.getElem_inj_iff hnd |>.mp heq.symm)

theorem chainLoop_wellFormed (members : List Addr) (hnd : members.Nodup) :
    ∀ (n : ℕ) (bal : List ℤ), bal.length = members.length →
      ∀ e ∈ chainLoop members n bal, 0 < e.amount ∧ e.fromAddr ≠ e.toAddr := by
  intro n
  induction n with
  | zero =>
    intro bal _ e he
    simp [chainLoop] at he
  | succ n ih =>
    intro bal hlen e he
    rw [chainLoop] at he
    cases hcr : chainRound members bal with
    | none =>
      rw [hcr] at he
      simp at he
    | some p =>
      obtain ⟨e2, bal2⟩ := p
      rw [hcr] at he
      rcases List.mem_cons.mp he with h | h
      · subst h
        exact chainRound_wellFormed members bal hnd hlen e bal2 hcr
      · exact ih bal2 (by rw [chainRound_length members bal e2 bal2 hcr, hlen]) e h

/-- C10.  Every simplified-debt entry is well-formed: strictly positive
amount and debtor distinct from creditor — for the off-chain
`simplifyDebts` over any balance map with unique keys, and for the
contract's `getSimplifiedDebts` over any duplicate-free member list. -/
theorem C10_wellFormed :
    (∀ (bal : List (Addr × ℤ)), (keysOf bal).Nodup →
      ∀ e ∈ simplifyDebts bal, 0 < e.amount ∧ e.fromAddr ≠ e.toAddr) ∧
    (∀ (members : List Addr) (balFn : Addr → ℤ), members.Nodup →
      ∀ e ∈ getSimplifiedDebts members balFn,
        0 < e.amount ∧ e.fromAddr ≠ e.toAddr) := by
  constructor
  · exact fun bal hk => simplifyDebts_wellFormed bal hk
  · intro members balFn hnd e he
    exact chainLoop_wellFormed members hnd members.length (members.map balFn)
      (by simp) e he

/-- Witness for C10: the single off-chain entry on a:+1, b:−1 and the
single on-chain entry on u:+2, v:−2 are both well-formed. -/
theorem C10_wellFormed_witness :
    ((0 : ℤ) < 1 ∧ ("b" : Addr) ≠ "a") ∧ ((0 : ℤ) < 2 ∧ ("v" : Addr) ≠ "u") := by
  constructor
  · have hs : simplifyDebts [("a", 1), ("b", -1)] = [⟨"b", "a", 1⟩] := by
      simp [simplifyDebts, creditorsOf, debtorsOf, sortDesc, insertDesc, greedy]
    have h := C10_wellFormed.1 [("a", 1), ("b", -1)] (by decide) ⟨"b", "a", 1⟩
      (by rw [hs]; exact List.mem_singleton_self _)
    exact h
  · have h := C10_wellFormed.2 ["u", "v"]
      (fun a => if a = "u" then 2 else if a = "v" then -2 else 0)
      (by decide) ⟨"v", "u", 2⟩ (by decide)
    exact h
